import Mathlib

/-!
Verification of the schedule-propagation core of the planner repository.

The first half of this file is a shallow embedding of the domain services
found in the repository (schedule calculator and dependency validator),
together with a model of the propagation engine described by the design
document.  The second half states and proves the properties claimed about
this code.
-/

namespace Planner

/-- Task lifecycle states, from the repository's `TaskStatus` enum. -/
inductive TaskStatus where
  | todo
  | blocked
  | doing
  | done
  | cancelled
deriving Repr, DecidableEq

/-- The fields of the repository's `Task` entity that the schedule engine
reads and writes.  Dates are modelled as integers (a `UtcDateTime` is an
absolute point on a linear timeline; only comparison and shifting by a
`timedelta` are used, so `Int` is a faithful carrier). -/
structure Task where
  expected_start_date : Option Int
  expected_end_date : Option Int
  actual_start_date : Option Int
  actual_end_date : Option Int
  status : TaskStatus
deriving Repr, DecidableEq

/-- Embeds `detect_delay` from `domain/services/schedule_calculator.py`:
returns `false` when either date is missing, otherwise compares them. -/
def detect_delay (task : Task) : Bool :=
  match task.actual_end_date, task.expected_end_date with
  | none, _ => false
  | _, none => false
  | some a, some e => a > e

/-- Embeds `calculate_delay_delta` from the schedule calculator. -/
def calculate_delay_delta (task : Task) : Option Int :=
  match task.actual_end_date, task.expected_end_date with
  | none, _ => none
  | _, none => none
  | some a, some e => some (a - e)

/-- The per-parent finish date chosen inside the loop of
`calculate_max_delay_from_parents`: a `DONE` parent with an actual end
contributes its actual end, otherwise the expected end is used when
present, and parents with neither are skipped (`none`). -/
def parentFinish (parent : Task) : Option Int :=
  if parent.status = TaskStatus.done ∧ parent.actual_end_date.isSome then
    parent.actual_end_date
  else
    parent.expected_end_date

/-- Embeds `calculate_max_delay_from_parents` from the schedule
calculator: folds over the parents keeping the largest finish date seen,
starting from `None`. -/
def calculate_max_delay_from_parents (parent_tasks : List Task) : Option Int :=
  parent_tasks.foldl
    (fun max_date parent =>
      match parentFinish parent with
      | none => max_date
      | some parent_end =>
        match max_date with
        | none => some parent_end
        | some m => if parent_end > m then some parent_end else some m)
    none

/-- Embeds `calculate_new_dates` from the schedule calculator: `DONE`
tasks are returned unchanged; a task with an actual start only has its
expected end shifted; otherwise both expected dates are shifted. -/
def calculate_new_dates (task : Task) (delay_delta : Int) :
    Option Int × Option Int :=
  if task.status = TaskStatus.done then
    (task.expected_start_date, task.expected_end_date)
  else
    if task.actual_start_date.isSome then
      match task.expected_end_date with
      | some e => (task.expected_start_date, some (e + delay_delta))
      | none => (task.expected_start_date, task.expected_end_date)
    else
      let new_start :=
        match task.expected_start_date with
        | some s => some (s + delay_delta)
        | none => task.expected_start_date
      let new_end :=
        match task.expected_end_date with
        | some e => some (e + delay_delta)
        | none => task.expected_end_date
      (new_start, new_end)

/-- Lookup in the dependency map (`existing_dependencies.get(current, [])`
in the Python source); the map is an association list from a task id to
the ids it depends on. -/
def getDeps (deps : List (Nat × List Nat)) (k : Nat) : List Nat :=
  match deps.find? (fun kv => kv.1 = k) with
  | some kv => kv.2
  | none => []

/-- The stack/visited loop of `detect_cycle` from
`domain/services/dependency_validator.py`, with explicit fuel.  The list
head plays the role of the top of the Python stack (Python pushes the
dependency list left to right and pops from the end, hence the
`reverse`). -/
def detectCycleAux (task_id : Nat) (deps : List (Nat × List Nat)) :
    Nat → List Nat → List Nat → Option Bool
  | _, [], _ => some false
  | 0, _ :: _, _ => none
  | fuel + 1, current :: rest, visited =>
    if current = task_id then
      some true
    else if current ∈ visited then
      detectCycleAux task_id deps fuel rest visited
    else
      detectCycleAux task_id deps fuel
        ((getDeps deps current).reverse ++ rest) (current :: visited)

/-- Total number of dependency entries in the map; every expansion of an
unvisited node consumes its own entries, so this bounds the work. -/
def totalDepsLen (deps : List (Nat × List Nat)) : Nat :=
  deps.foldl (fun a kv => a + kv.2.length) 0

/-- Fuel sufficient for `detectCycleAux` started on a single-element
stack (proved below). -/
def cycleFuel (deps : List (Nat × List Nat)) : Nat :=
  totalDepsLen deps + 1

/-- Embeds `detect_cycle`: a self-dependency is reported immediately,
otherwise a depth-first search from `depends_on_id` over the existing
dependency edges looks for `task_id`. -/
def detect_cycle (task_id depends_on_id : Nat)
    (existing_dependencies : List (Nat × List Nat)) : Bool :=
  if task_id = depends_on_id then
    true
  else
    (detectCycleAux task_id existing_dependencies
      (cycleFuel existing_dependencies) [depends_on_id] []).getD false

/-- Reachability along the stored dependency edges: `Reaches deps a b`
holds when `b` can be found from `a` by repeatedly following entries of
the dependency map. -/
inductive Reaches (deps : List (Nat × List Nat)) : Nat → Nat → Prop
  | refl (a : Nat) : Reaches deps a a
  | step (a b c : Nat) : b ∈ getDeps deps a → Reaches deps b c →
      Reaches deps a c

/-- Modelled from the spec: one externally supplied root change of the
propagation contract `propagate(rootChanges: map[taskId]{oldEnd, newEnd,
reason, causingTaskId})`.  The implementation file
(`application/use_cases/propagate_schedule.py`) is only declared in the
repository, so the engine below follows the design document. -/
structure RootChange where
  id : Nat
  oldEnd : Int
  newEnd : Int
deriving Repr, DecidableEq

/-- Reasons recorded on a propagation history entry (the engine itself
only emits the two dependency reasons). -/
inductive ScheduleChangeReason where
  | dependency_delay
  | dependency_early
deriving Repr, DecidableEq

/-- Modelled from the spec: the `ScheduleHistoryEntry` record produced
for every task whose dates actually change during a propagation pass. -/
structure ScheduleHistoryEntry where
  taskId : Nat
  oldStart : Option Int
  oldEnd : Option Int
  newStart : Option Int
  newEnd : Option Int
  reason : ScheduleChangeReason
  causingTaskId : Option Nat
deriving Repr, DecidableEq

/-- Dependency edges as stored by the graph store: `(dependent, blocker)`
pairs, finish-to-start only. -/
abbrev DepEdge := Nat × Nat

/-- Direct blockers (predecessors) of a task in the edge list. -/
def predsOf (edges : List DepEdge) (t : Nat) : List Nat :=
  (edges.filter (fun pr => pr.1 = t)).map (fun pr => pr.2)

/-- Direct dependents of a task in the edge list. -/
def dependentsOf (edges : List DepEdge) (b : Nat) : List Nat :=
  (edges.filter (fun pr => pr.2 = b)).map (fun pr => pr.1)

/-- Modelled from the spec: collection of the downstream closure of the
root-changed tasks by reverse reachability over the dependency edges
(step 1 of the propagation algorithm); breadth-first with a visited
list, driven by explicit fuel. -/
def closureAux (edges : List DepEdge) :
    Nat → List Nat → List Nat → List Nat
  | 0, _, visited => visited
  | _, [], visited => visited
  | fuel + 1, q :: qs, visited =>
    if q ∈ visited then
      closureAux edges fuel qs visited
    else
      closureAux edges fuel (qs ++ dependentsOf edges q) (visited ++ [q])

/-- Fuel that is ample for the closure collection: every expansion
enqueues at most one entry per edge. -/
def closureFuel (edges : List DepEdge) (rootIds : List Nat) : Nat :=
  rootIds.length + (rootIds.length + edges.length) * (edges.length + 1) + 1

/-- Modelled from the spec: the downstream closure of the root changes
(every task whose dates can be affected, the roots included). -/
def downstreamClosure (edges : List DepEdge) (rootIds : List Nat) : List Nat :=
  closureAux edges (closureFuel edges rootIds) rootIds []

/-- A node all of whose blockers have already left `remaining` has
in-degree zero in the restricted subgraph and may be emitted next. -/
def hasNoBlockerIn (edges : List DepEdge) (remaining : List Nat) (n : Nat) :
    Bool :=
  edges.all (fun pr => !(pr.1 = n && remaining.contains pr.2))

/-- The next zero-in-degree node of the remaining subgraph, if any. -/
def pickNext (edges : List DepEdge) (remaining : List Nat) : Option Nat :=
  remaining.find? (hasNoBlockerIn edges remaining)

/-- Modelled from the spec: Kahn-style topological ordering
(`topoSort(taskIds, edges) → orderedList | error`): repeatedly emit a
zero-in-degree node; if none exists while nodes remain, the edges are
inconsistent and the sort fails. -/
def topoAux (edges : List DepEdge) : Nat → List Nat → Option (List Nat)
  | 0, remaining => if remaining.isEmpty then some [] else none
  | fuel + 1, remaining =>
    if remaining.isEmpty then
      some []
    else
      match pickNext edges remaining with
      | none => none
      | some n => (topoAux edges fuel (remaining.erase n)).map (n :: ·)

/-- Modelled from the spec: the topological orderer, with failure
(`none`) standing for the fatal `ScheduleInvariantViolation`. -/
def topoSort (edges : List DepEdge) (nodes : List Nat) : Option (List Nat) :=
  topoAux edges nodes.length nodes

/-- Modelled from the spec: the visit order of one propagation pass —
the topologically sorted downstream closure of the root changes. -/
def visitOrder (edges : List DepEdge) (rootIds : List Nat) :
    Option (List Nat) :=
  topoSort edges (downstreamClosure edges rootIds)

/-- Modelled from the spec: the lifecycle-aware date resolver
(`resolve(task, predecessorFinishDates)`).  `curMax` is the largest
current (already resolved in this pass) predecessor finish, `origMax`
the largest predecessor finish before the pass; their difference is the
delta the predecessors shifted by.  Done and cancelled tasks are frozen;
a started task keeps its start and its end shifts by the predecessor
delta; a not-yet-started task moves to the required start keeping its
duration.  Missing data degrades to returning the dates unchanged. -/
def resolveDates (task : Task) (curMax origMax : Option Int) :
    Option Int × Option Int :=
  if task.status = TaskStatus.done ∨ task.status = TaskStatus.cancelled then
    (task.expected_start_date, task.expected_end_date)
  else if task.actual_start_date.isSome then
    match task.expected_end_date, curMax, origMax with
    | some e, some c, some o => (task.expected_start_date, some (e + (c - o)))
    | _, _, _ => (task.expected_start_date, task.expected_end_date)
  else
    match task.expected_start_date, task.expected_end_date, curMax with
    | some s, some e, some m =>
      (some (max s m), some (max s m + (e - s)))
    | _, _, _ => (task.expected_start_date, task.expected_end_date)

/-- The predecessor whose finish date is the binding (argmax) constraint,
recorded as `causingTaskId` on the history entry. -/
def bindingPred (st : Nat → Task) (preds : List Nat) : Option Nat :=
  (preds.foldl
    (fun acc p =>
      match parentFinish (st p) with
      | none => acc
      | some f =>
        match acc with
        | none => some (p, f)
        | some qg => if f > qg.2 then some (p, f) else some qg)
    none).map (fun pf => pf.1)

/-- Reason tag for a recorded mutation: a shift to an earlier end is
`dependency_early`, everything else `dependency_delay`. -/
def entryReason (oldEnd newEnd : Option Int) : ScheduleChangeReason :=
  match oldEnd, newEnd with
  | some o, some n =>
    if n < o then ScheduleChangeReason.dependency_early
    else ScheduleChangeReason.dependency_delay
  | _, _ => ScheduleChangeReason.dependency_delay

/-- Pointwise state update used by the propagation pass. -/
def updateState (st : Nat → Task) (n : Nat) (t : Task) : Nat → Task :=
  fun m => if m = n then t else st m

/-- Modelled from the spec: resolving one task during the pass (step 3
and 4 of the algorithm).  The current and pre-pass predecessor finish
maxima are computed with the repository's
`calculate_max_delay_from_parents`; a task whose resolved dates equal
its stored dates produces no mutation and no history entry. -/
def stepTask (edges : List DepEdge) (orig w : Nat → Task) (t : Nat) :
    Task × Option ScheduleHistoryEntry :=
  let task := w t
  let preds := predsOf edges t
  let curMax := calculate_max_delay_from_parents (preds.map w)
  let origMax := calculate_max_delay_from_parents (preds.map orig)
  let r := resolveDates task curMax origMax
  if r.1 = task.expected_start_date ∧ r.2 = task.expected_end_date then
    (task, none)
  else
    ({ task with expected_start_date := r.1, expected_end_date := r.2 },
      some
        { taskId := t
          oldStart := task.expected_start_date
          oldEnd := task.expected_end_date
          newStart := r.1
          newEnd := r.2
          reason := entryReason task.expected_end_date r.2
          causingTaskId := bindingPred w preds })

/-- Modelled from the spec: the single forward relaxation pass over the
topologically sorted closure.  Root tasks already carry their externally
given new end and are never themselves mutated. -/
def runPass (edges : List DepEdge) (orig : Nat → Task)
    (rootIds : List Nat) :
    (Nat → Task) → List Nat → (Nat → Task) × List ScheduleHistoryEntry
  | w, [] => (w, [])
  | w, t :: rest =>
    if t ∈ rootIds then
      runPass edges orig rootIds w rest
    else
      let st := stepTask edges orig w t
      let res := runPass edges orig rootIds (updateState w t st.1) rest
      (res.1, st.2.toList ++ res.2)

/-- The ids of the root changes. -/
def rootIdsOf (roots : List RootChange) : List Nat :=
  roots.map (fun rc => rc.id)

/-- Modelled from the spec: the working state at the start of a pass —
every root-changed task holds its externally given `newEnd`. -/
def applyRoots (st : Nat → Task) (roots : List RootChange) (n : Nat) : Task :=
  match roots.find? (fun rc => rc.id = n) with
  | some rc => { st n with expected_end_date := some rc.newEnd }
  | none => st n

/-- Modelled from the spec: the propagation engine.  It collects the
downstream closure of the roots, topologically sorts it (failure is the
fatal `ScheduleInvariantViolation` and aborts the whole propagation),
then walks the order once resolving every non-root task against the
already-resolved finish dates of its direct predecessors.  The result is
the new graph state together with the list of history entries. -/
def propagate (edges : List DepEdge) (tasks : Nat → Task)
    (roots : List RootChange) :
    Option ((Nat → Task) × List ScheduleHistoryEntry) :=
  match visitOrder edges (rootIdsOf roots) with
  | none => none
  | some order =>
    some (runPass edges tasks (rootIdsOf roots) (applyRoots tasks roots) order)

/-! ### Helper lemmas about folded maxima -/

theorem if_gt_eq_max (a f : Int) : (if f > a then f else a) = max a f := by
  rcases le_or_lt f a with h | h
  · simp [not_lt_of_le h, max_eq_left h]
  · simp [h, max_eq_right (le_of_lt h)]

theorem if_gt_eq_max_some (a f : Int) :
    (if f > a then some f else some a) = some (max a f) := by
  rw [← if_gt_eq_max a f]
  exact (apply_ite some (f > a) f a).symm

theorem le_foldl_max (l : List Int) (a : Int) : a ≤ l.foldl max a := by
  induction l generalizing a with
  | nil => exact le_refl a
  | cons x xs ih => exact le_trans (le_max_left a x) (ih (max a x))

theorem mem_le_foldl_max (l : List Int) (a x : Int) (hx : x ∈ l) :
    x ≤ l.foldl max a := by
  induction l generalizing a with
  | nil => cases hx
  | cons y ys ih =>
    rcases List.mem_cons.mp hx with rfl | hx
    · exact le_trans (le_max_right a x) (le_foldl_max ys (max a x))
    · exact ih (max a y) hx

theorem foldl_max_mem_or (l : List Int) (a : Int) :
    l.foldl max a = a ∨ l.foldl max a ∈ l := by
  induction l generalizing a with
  | nil => exact Or.inl rfl
  | cons x xs ih =>
    rcases ih (max a x) with h | h
    · rcases max_cases a x with ⟨hm, _⟩ | ⟨hm, _⟩
      · exact Or.inl (by rw [List.foldl_cons, h, hm])
      · exact Or.inr (by rw [List.foldl_cons, h, hm]; exact List.mem_cons_self x xs)
    · exact Or.inr (List.mem_cons_of_mem x h)

theorem foldl_max_le (l : List Int) (a b : Int) (ha : a ≤ b)
    (hl : ∀ x ∈ l, x ≤ b) : l.foldl max a ≤ b := by
  induction l generalizing a with
  | nil => exact ha
  | cons x xs ih =>
    exact ih (max a x) (max_le ha (hl x (List.mem_cons_self x xs)))
      (fun y hy => hl y (List.mem_cons_of_mem x hy))

/-- The fold step of `calculate_max_delay_from_parents`. -/
def maxFoldStep (max_date : Option Int) (parent : Task) : Option Int :=
  match parentFinish parent with
  | none => max_date
  | some parent_end =>
    match max_date with
    | none => some parent_end
    | some m => if parent_end > m then some parent_end else some m

theorem cmdfp_eq_foldl (parents : List Task) :
    calculate_max_delay_from_parents parents = parents.foldl maxFoldStep none :=
  rfl

theorem foldl_maxFoldStep_some (parents : List Task) (a : Int) :
    parents.foldl maxFoldStep (some a) =
      some ((parents.filterMap parentFinish).foldl max a) := by
  induction parents generalizing a with
  | nil => rfl
  | cons p ps ih =>
    rw [List.foldl_cons]
    cases hp : parentFinish p with
    | none => simpa [maxFoldStep, hp, List.filterMap_cons] using ih a
    | some f =>
      simp only [maxFoldStep, hp, List.filterMap_cons, List.foldl_cons,
        if_gt_eq_max_some]
      exact ih (max a f)

theorem foldl_maxFoldStep_none (parents : List Task) :
    parents.foldl maxFoldStep none =
      match parents.filterMap parentFinish with
      | [] => none
      | x :: xs => some (xs.foldl max x) := by
  induction parents with
  | nil => rfl
  | cons p ps ih =>
    rw [List.foldl_cons]
    cases hp : parentFinish p with
    | none => simpa [maxFoldStep, hp, List.filterMap_cons] using ih
    | some f =>
      simp only [maxFoldStep, hp, List.filterMap_cons]
      exact foldl_maxFoldStep_some ps f

/-! ### C9: totality of delay detection -/

/-- C9: delay detection is total over optional dates: a missing actual
or expected end yields `false`, and with both dates present the result
is exactly the comparison `actual_end_date > expected_end_date`. -/
theorem detect_delay_total_spec (task : Task) :
    ((task.actual_end_date = none ∨ task.expected_end_date = none) →
      detect_delay task = false) ∧
    (∀ a e, task.actual_end_date = some a → task.expected_end_date = some e →
      (detect_delay task = true ↔ a > e)) := by
  constructor
  · intro h
    rcases h with h | h <;>
      · cases ha : task.actual_end_date <;> cases he : task.expected_end_date <;>
          simp_all [detect_delay]
  · intro a e ha he
    simp [detect_delay, ha, he]

/-- Witness for C9 at concrete tasks. -/
theorem detect_delay_total_spec_witness :
    detect_delay ⟨none, some 1, none, some 3, TaskStatus.done⟩ = true ∧
    detect_delay ⟨none, none, none, some 3, TaskStatus.done⟩ = false := by
  constructor
  · exact ((detect_delay_total_spec
      ⟨none, some 1, none, some 3, TaskStatus.done⟩).2 3 1 rfl rfl).mpr
      (by decide)
  · exact (detect_delay_total_spec
      ⟨none, none, none, some 3, TaskStatus.done⟩).1 (Or.inr rfl)

/-! ### C2: which statuses freeze the dates -/

/-- C2 counterexample: a `cancelled` task is not frozen by
`calculate_new_dates` — a not-yet-started cancelled task has both
expected dates shifted by the delta, contradicting the claim that
cancelled tasks are returned unchanged. -/
theorem cancelled_task_not_frozen_cex :
    (⟨some 0, some 5, none, none, TaskStatus.cancelled⟩ : Task).status =
      TaskStatus.cancelled ∧
    calculate_new_dates ⟨some 0, some 5, none, none, TaskStatus.cancelled⟩ 3 ≠
      ((⟨some 0, some 5, none, none, TaskStatus.cancelled⟩ : Task).expected_start_date,
       (⟨some 0, some 5, none, none, TaskStatus.cancelled⟩ : Task).expected_end_date) := by
  decide

/-- C2 amended: only `done` tasks are frozen — for every task whose
status is `done`, `calculate_new_dates` returns the expected dates
unchanged for every delta. -/
theorem done_task_dates_frozen (task : Task) (delay_delta : Int)
    (h : task.status = TaskStatus.done) :
    calculate_new_dates task delay_delta =
      (task.expected_start_date, task.expected_end_date) := by
  simp [calculate_new_dates, h]

/-- Witness for the amended C2. -/
theorem done_task_dates_frozen_witness :
    calculate_new_dates ⟨some 0, some 5, some 0, some 9, TaskStatus.done⟩ 3 =
      (some 0, some 5) :=
  done_task_dates_frozen ⟨some 0, some 5, some 0, some 9, TaskStatus.done⟩ 3 rfl

/-! ### C3: started tasks keep their start, only the end shifts -/

/-- C3 counterexample: a `done` task with `actual_start_date` set does
not have its expected end shifted by the delta, contradicting the claim
quantified over every task with an actual start. -/
theorem done_started_task_end_not_shifted_cex :
    (⟨some 1, some 5, some 1, some 5, TaskStatus.done⟩ : Task).actual_start_date.isSome =
      true ∧
    (calculate_new_dates ⟨some 1, some 5, some 1, some 5, TaskStatus.done⟩ 3).2 ≠
      some (5 + 3) := by
  decide

/-- C3 amended: for every task that is not `done`, has an actual start
and an expected end, the resolver keeps the expected start unchanged and
shifts exactly the expected end by the delta. -/
theorem started_task_shifts_end_only (task : Task) (delay_delta e : Int)
    (hst : task.status ≠ TaskStatus.done)
    (hstart : task.actual_start_date.isSome)
    (hend : task.expected_end_date = some e) :
    calculate_new_dates task delay_delta =
      (task.expected_start_date, some (e + delay_delta)) := by
  simp [calculate_new_dates, hst, hstart, hend]

/-- Witness for the amended C3: the spec scenario — a `doing` task with
actual start day 1 and expected end day 5 whose blocker shifts 3 days
keeps start day 1 and ends day 8. -/
theorem started_task_shifts_end_only_witness :
    calculate_new_dates ⟨some 1, some 5, some 1, none, TaskStatus.doing⟩ 3 =
      (some 1, some 8) :=
  started_task_shifts_end_only ⟨some 1, some 5, some 1, none, TaskStatus.doing⟩
    3 5 (by decide) (by decide) rfl

/-! ### C4: not-yet-started tasks shift rigidly, preserving duration -/

/-- C4: a not-yet-started task (no actual start, status neither done nor
cancelled) with both expected dates present moves to the shifted start
and keeps its duration exactly. -/
theorem not_started_shift_preserves_duration (task : Task)
    (delay_delta s e : Int)
    (hd : task.status ≠ TaskStatus.done)
    (_hc : task.status ≠ TaskStatus.cancelled)
    (hstart : task.actual_start_date = none)
    (hs : task.expected_start_date = some s)
    (he : task.expected_end_date = some e) :
    calculate_new_dates task delay_delta =
      (some (s + delay_delta), some ((s + delay_delta) + (e - s))) ∧
    ((s + delay_delta) + (e - s)) - (s + delay_delta) = e - s := by
  refine ⟨?_, by ring⟩
  simp only [calculate_new_dates, hd, hstart, hs, he, if_neg hd,
    Option.isSome_none, Bool.false_eq_true, if_false]
  rw [(by ring : e + delay_delta = (s + delay_delta) + (e - s))]

/-- Witness for C4: the spec scenario — task B (expected days 1 to 3,
not started) shifted by a 3-day delay lands on days 4 to 6. -/
theorem not_started_shift_preserves_duration_witness :
    calculate_new_dates ⟨some 1, some 3, none, none, TaskStatus.todo⟩ 3 =
      (some 4, some (4 + (3 - 1))) :=
  (not_started_shift_preserves_duration
    ⟨some 1, some 3, none, none, TaskStatus.todo⟩ 3 1 3
    (by decide) (by decide) rfl rfl rfl).1

/-! ### C5: what the earliest-start constraint actually is -/

/-- C5 counterexample: the constraint computed by
`calculate_max_delay_from_parents` is not
`max(task.expectedStart, max(predecessorFinishDates))`: for a dependent
task holding expected start 10 and a single predecessor finishing at 5,
the function returns 5, not `max 10 5`. -/
theorem required_start_ignores_own_expected_start_cex :
    calculate_max_delay_from_parents
      [⟨some 0, some 5, none, none, TaskStatus.todo⟩] = some 5 ∧
    calculate_max_delay_from_parents
      [⟨some 0, some 5, none, none, TaskStatus.todo⟩] ≠ some (max 10 5) := by
  decide

/-- C5 amended: the earliest-start constraint is exactly the maximum of
the per-predecessor finish dates (`parentFinish`: actual end for a done
predecessor with one, expected end otherwise, absent dates skipped); the
dependent task's own expected start does not enter the maximum. -/
theorem max_delay_from_parents_is_max (parents : List Task) (m : Int) :
    calculate_max_delay_from_parents parents = some m ↔
      m ∈ parents.filterMap parentFinish ∧
        ∀ x ∈ parents.filterMap parentFinish, x ≤ m := by
  rw [cmdfp_eq_foldl, foldl_maxFoldStep_none]
  cases hf : parents.filterMap parentFinish with
  | nil => simp
  | cons x xs =>
    simp only [Option.some_inj]
    constructor
    · rintro rfl
      refine ⟨?_, ?_⟩
      · rcases foldl_max_mem_or xs x with h | h
        · rw [h]; exact List.mem_cons_self x xs
        · exact List.mem_cons_of_mem x h
      · intro y hy
        rcases List.mem_cons.mp hy with rfl | hy
        · exact le_foldl_max xs y
        · exact mem_le_foldl_max xs x y hy
    · rintro ⟨hm, hb⟩
      refine le_antisymm ?_ ?_
      · exact foldl_max_le xs x m (hb x (List.mem_cons_self x xs))
          (fun y hy => hb y (List.mem_cons_of_mem x hy))
      · rcases List.mem_cons.mp hm with rfl | hm
        · exact le_foldl_max xs m
        · exact mem_le_foldl_max xs x m hm

/-- Witness for the amended C5. -/
theorem max_delay_from_parents_is_max_witness :
    calculate_max_delay_from_parents
      [⟨some 0, some 5, none, none, TaskStatus.todo⟩,
       ⟨some 0, some 3, some 0, some 4, TaskStatus.done⟩] = some 5 :=
  (max_delay_from_parents_is_max
    [⟨some 0, some 5, none, none, TaskStatus.todo⟩,
     ⟨some 0, some 3, some 0, some 4, TaskStatus.done⟩] 5).mpr
    (by decide)

/-! ### C1: converging paths receive the maximum delay -/

/-- The converging-paths example of the design document: tasks A (id 1)
and B (id 2) both block D (id 3).  A and B were planned to finish on day
10; A finished on day 12 (2 days late) and B on day 14 (4 days late).
D was planned for days 10 to 15 and has not started. -/
def exTasks : Nat → Task := fun n =>
  if n = 1 then ⟨some 0, some 10, some 0, some 12, TaskStatus.done⟩
  else if n = 2 then ⟨some 0, some 10, some 0, some 14, TaskStatus.done⟩
  else ⟨some 10, some 15, none, none, TaskStatus.todo⟩

/-- Edges of the converging-paths example: D depends on A and on B. -/
def exEdges : List DepEdge := [(3, 1), (3, 2)]

/-- Root changes of the converging-paths example: A slips from day 10 to
day 12 and B from day 10 to day 14. -/
def exRoots : List RootChange := [⟨1, 10, 12⟩, ⟨2, 10, 14⟩]

/-- C1: with paths converging on D carrying delays of 2 and 4 days, the
propagation shifts D by exactly `max 2 4 = 4` days (start day 10 becomes
14, end day 15 becomes 19) — not by the sum of the path delays and not
by the delay of the first path alone. -/
theorem propagate_max_of_paths :
    (propagate exEdges exTasks exRoots).map
        (fun p => ((p.1 3).expected_start_date, (p.1 3).expected_end_date)) =
      some (some (10 + max 2 4), some (15 + max 2 4)) ∧
    (10 + max 2 4 : Int) ≠ 10 + (2 + 4) ∧
    (10 + max 2 4 : Int) ≠ 10 + 2 := by
  refine ⟨?_, by decide, by decide⟩
  rfl

/-! ### C10: the cycle search always terminates -/

/-- Dependency entries whose key has not been visited yet; their total
length bounds the work remaining for `detectCycleAux`. -/
def unvisitedDepsLen (deps : List (Nat × List Nat)) (visited : List Nat) :
    Nat :=
  totalDepsLen (deps.filter (fun kv => decide (kv.1 ∉ visited)))

theorem foldl_add_len (l : List (Nat × List Nat)) (n : Nat) :
    l.foldl (fun a kv => a + kv.2.length) n =
      n + l.foldl (fun a kv => a + kv.2.length) 0 := by
  induction l generalizing n with
  | nil => simp
  | cons kv rest ih =>
    rw [List.foldl_cons, List.foldl_cons, ih (n + kv.2.length),
      ih (0 + kv.2.length)]
    omega

theorem totalDepsLen_cons (kv : Nat × List Nat) (rest : List (Nat × List Nat)) :
    totalDepsLen (kv :: rest) = kv.2.length + totalDepsLen rest := by
  unfold totalDepsLen
  rw [List.foldl_cons, foldl_add_len]
  omega

theorem unvisitedDepsLen_cons (kv : Nat × List Nat)
    (rest : List (Nat × List Nat)) (visited : List Nat) :
    unvisitedDepsLen (kv :: rest) visited =
      if kv.1 ∉ visited then kv.2.length + unvisitedDepsLen rest visited
      else unvisitedDepsLen rest visited := by
  unfold unvisitedDepsLen
  rw [List.filter_cons]
  by_cases hv : kv.1 ∈ visited
  · rw [if_neg (fun h => (of_decide_eq_true h) hv), if_neg (not_not_intro hv)]
  · rw [if_pos (decide_eq_true hv), if_pos hv, totalDepsLen_cons]

theorem unvisitedDepsLen_mono (deps : List (Nat × List Nat))
    (visited : List Nat) (current : Nat) :
    unvisitedDepsLen deps (current :: visited) ≤ unvisitedDepsLen deps visited := by
  induction deps with
  | nil => exact le_refl _
  | cons kv rest ih =>
    rw [unvisitedDepsLen_cons, unvisitedDepsLen_cons]
    by_cases hv' : kv.1 ∈ current :: visited
    · rw [if_neg (not_not_intro hv')]
      by_cases hv : kv.1 ∈ visited
      · rw [if_neg (not_not_intro hv)]
        exact ih
      · rw [if_pos hv]
        omega
    · have hv : kv.1 ∉ visited := fun h => hv' (List.mem_cons_of_mem current h)
      rw [if_pos hv', if_pos hv]
      omega

theorem unvisitedDepsLen_visit (deps : List (Nat × List Nat))
    (visited : List Nat) (current : Nat) (hcur : current ∉ visited) :
    unvisitedDepsLen deps (current :: visited) + (getDeps deps current).length ≤
      unvisitedDepsLen deps visited := by
  induction deps with
  | nil => simp [unvisitedDepsLen, getDeps, totalDepsLen]
  | cons kv rest ih =>
    rw [unvisitedDepsLen_cons, unvisitedDepsLen_cons]
    by_cases hc : kv.1 = current
    · have hv : kv.1 ∉ visited := by rw [hc]; exact hcur
      have hv' : kv.1 ∈ current :: visited := by
        rw [hc]; exact List.mem_cons_self current visited
      have hget : getDeps (kv :: rest) current = kv.2 := by
        unfold getDeps
        rw [List.find?_cons_of_pos _ (by simp [hc])]
      rw [if_neg (not_not_intro hv'), if_pos hv, hget]
      have := unvisitedDepsLen_mono rest visited current
      omega
    · have hget : getDeps (kv :: rest) current = getDeps rest current := by
        unfold getDeps
        rw [List.find?_cons_of_neg _ (by simp [hc])]
      rw [hget]
      by_cases hv : kv.1 ∈ visited
      · have hv' : kv.1 ∈ current :: visited := List.mem_cons_of_mem current hv
        rw [if_neg (not_not_intro hv'), if_neg (not_not_intro hv)]
        exact ih
      · have hv' : kv.1 ∉ current :: visited := by
          intro h
          rcases List.mem_cons.mp h with h | h
          · exact hc h
          · exact hv h
        rw [if_pos hv', if_pos hv]
        omega

theorem detectCycleAux_isSome (task_id : Nat) (deps : List (Nat × List Nat)) :
    ∀ fuel stack visited,
      stack.length + unvisitedDepsLen deps visited ≤ fuel →
      (detectCycleAux task_id deps fuel stack visited).isSome := by
  intro fuel
  induction fuel with
  | zero =>
    intro stack visited hb
    cases stack with
    | nil => simp [detectCycleAux]
    | cons c rest => simp at hb
  | succ fuel ih =>
    intro stack visited hb
    cases stack with
    | nil => simp [detectCycleAux]
    | cons c rest =>
      by_cases hc : c = task_id
      · simp [detectCycleAux, hc]
      · by_cases hv : c ∈ visited
        · simp only [detectCycleAux, hc, hv, if_false, if_true,
            if_neg hc, if_pos hv]
          exact ih rest visited (by simp at hb; omega)
        · simp only [detectCycleAux, if_neg hc, if_neg hv]
          apply ih
          have hvisit := unvisitedDepsLen_visit deps visited c hv
          simp only [List.length_append, List.length_reverse, List.length_cons] at hb ⊢
          omega

/-- C10: `detect_cycle` terminates on every input: with the fuel the
function is given, the visited-set search always completes — even on
dependency maps whose graph already contains cycles or self-loops — so
the search never loops forever. -/
theorem detect_cycle_terminates (task_id depends_on_id : Nat)
    (existing_dependencies : List (Nat × List Nat)) :
    (detectCycleAux task_id existing_dependencies
      (cycleFuel existing_dependencies) [depends_on_id] []).isSome := by
  apply detectCycleAux_isSome
  have : unvisitedDepsLen existing_dependencies [] =
      totalDepsLen existing_dependencies := by
    unfold unvisitedDepsLen
    congr 1
    apply List.filter_eq_self.mpr
    intro kv _
    simp
  rw [this]
  unfold cycleFuel
  simp only [List.length_cons, List.length_nil]
  omega

/-! ### C6: the cycle check decides reachability -/

theorem Reaches_snoc (deps : List (Nat × List Nat)) (a b c : Nat)
    (hab : Reaches deps a b) (hc : c ∈ getDeps deps b) : Reaches deps a c := by
  induction hab with
  | refl x => exact Reaches.step x c c hc (Reaches.refl c)
  | step x y z hy _ ih => exact Reaches.step x y c hy (ih hc)

theorem detectCycleAux_sound (task_id start : Nat)
    (deps : List (Nat × List Nat)) :
    ∀ fuel stack visited,
      (∀ x ∈ stack, Reaches deps start x) →
      detectCycleAux task_id deps fuel stack visited = some true →
      Reaches deps start task_id := by
  intro fuel
  induction fuel with
  | zero =>
    intro stack visited hst hrun
    cases stack with
    | nil => simp [detectCycleAux] at hrun
    | cons c rest => simp [detectCycleAux] at hrun
  | succ fuel ih =>
    intro stack visited hst hrun
    cases stack with
    | nil => simp [detectCycleAux] at hrun
    | cons c rest =>
      by_cases hc : c = task_id
      · exact hc ▸ hst c (List.mem_cons_self c rest)
      · by_cases hv : c ∈ visited
        · simp only [detectCycleAux, if_neg hc, if_pos hv] at hrun
          exact ih rest visited
            (fun x hx => hst x (List.mem_cons_of_mem c hx)) hrun
        · simp only [detectCycleAux, if_neg hc, if_neg hv] at hrun
          refine ih _ _ ?_ hrun
          intro x hx
          rcases List.mem_append.mp hx with hx | hx
          · exact Reaches_snoc deps start c x
              (hst c (List.mem_cons_self c rest)) (List.mem_reverse.mp hx)
          · exact hst x (List.mem_cons_of_mem c hx)

theorem reach_mem_closed (deps : List (Nat × List Nat)) (V : List Nat)
    (hcl : ∀ x ∈ V, ∀ y ∈ getDeps deps x, y ∈ V) (a b : Nat)
    (hab : Reaches deps a b) (ha : a ∈ V) : b ∈ V := by
  induction hab with
  | refl x => exact ha
  | step x y z hy _ ih => exact ih (hcl x ha y hy)

theorem detectCycleAux_complete (task_id : Nat)
    (deps : List (Nat × List Nat)) :
    ∀ fuel stack visited,
      detectCycleAux task_id deps fuel stack visited = some false →
      (∀ x ∈ visited, ∀ y ∈ getDeps deps x, y ∈ visited ∨ y ∈ stack) →
      task_id ∉ visited →
      ∀ a, (a ∈ stack ∨ a ∈ visited) → ¬ Reaches deps a task_id := by
  intro fuel
  induction fuel with
  | zero =>
    intro stack visited hrun hinv ht a ha hreach
    cases stack with
    | nil =>
      have hcl : ∀ x ∈ visited, ∀ y ∈ getDeps deps x, y ∈ visited := by
        intro x hx y hy
        rcases hinv x hx y hy with h | h
        · exact h
        · cases h
      have hav : a ∈ visited := by
        rcases ha with h | h
        · cases h
        · exact h
      exact ht (reach_mem_closed deps visited hcl a task_id hreach hav)
    | cons c rest => simp [detectCycleAux] at hrun
  | succ fuel ih =>
    intro stack visited hrun hinv ht a ha hreach
    cases stack with
    | nil =>
      have hcl : ∀ x ∈ visited, ∀ y ∈ getDeps deps x, y ∈ visited := by
        intro x hx y hy
        rcases hinv x hx y hy with h | h
        · exact h
        · cases h
      have hav : a ∈ visited := by
        rcases ha with h | h
        · cases h
        · exact h
      exact ht (reach_mem_closed deps visited hcl a task_id hreach hav)
    | cons c rest =>
      by_cases hc : c = task_id
      · simp [detectCycleAux, hc] at hrun
      · by_cases hv : c ∈ visited
        · simp only [detectCycleAux, if_neg hc, if_pos hv] at hrun
          refine ih rest visited hrun ?_ ht a ?_ hreach
          · intro x hx y hy
            rcases hinv x hx y hy with h | h
            · exact Or.inl h
            · rcases List.mem_cons.mp h with rfl | h
              · exact Or.inl hv
              · exact Or.inr h
          · rcases ha with h | h
            · rcases List.mem_cons.mp h with rfl | h
              · exact Or.inr hv
              · exact Or.inl h
            · exact Or.inr h
        · simp only [detectCycleAux, if_neg hc, if_neg hv] at hrun
          have hinv' : ∀ x ∈ c :: visited, ∀ y ∈ getDeps deps x,
              y ∈ c :: visited ∨ y ∈ (getDeps deps c).reverse ++ rest := by
            intro x hx y hy
            rcases List.mem_cons.mp hx with rfl | hx
            · exact Or.inr (List.mem_append.mpr
                (Or.inl (List.mem_reverse.mpr hy)))
            · rcases hinv x hx y hy with h | h
              · exact Or.inl (List.mem_cons_of_mem c h)
              · rcases List.mem_cons.mp h with rfl | h
                · exact Or.inl (List.mem_cons_self y visited)
                · exact Or.inr (List.mem_append.mpr (Or.inr h))
          have ht' : task_id ∉ c :: visited := by
            intro h
            rcases List.mem_cons.mp h with h | h
            · exact hc h.symm
            · exact ht h
          refine ih _ _ hrun hinv' ht' a ?_ hreach
          rcases ha with h | h
          · rcases List.mem_cons.mp h with rfl | h
            · exact Or.inr (List.mem_cons_self a visited)
            · exact Or.inl (List.mem_append.mpr (Or.inr h))
          · exact Or.inr (List.mem_cons_of_mem c h)

/-- C6: `detect_cycle` returns `true` exactly when the candidate edge
closes a cycle: always for a self-dependency, and otherwise precisely
when the dependent is reachable from the blocker along the stored
dependency edges. -/
theorem detect_cycle_iff_reachable (task_id depends_on_id : Nat)
    (deps : List (Nat × List Nat)) :
    detect_cycle task_id depends_on_id deps = true ↔
      (task_id = depends_on_id ∨ Reaches deps depends_on_id task_id) := by
  unfold detect_cycle
  by_cases h : task_id = depends_on_id
  · simp [h]
  · simp only [if_neg h]
    have hsome := detectCycleAux_isSome task_id deps (cycleFuel deps)
      [depends_on_id] [] (by
        have : unvisitedDepsLen deps [] = totalDepsLen deps := by
          unfold unvisitedDepsLen
          congr 1
          apply List.filter_eq_self.mpr
          intro kv _
          simp
        rw [this]
        unfold cycleFuel
        simp only [List.length_cons, List.length_nil]
        omega)
    cases hb : detectCycleAux task_id deps (cycleFuel deps)
        [depends_on_id] [] with
    | none => rw [hb] at hsome; cases hsome
    | some b =>
      cases b with
      | true =>
        simp only [hb, Option.getD_some, true_iff]
        refine Or.inr (detectCycleAux_sound task_id depends_on_id deps
          (cycleFuel deps) [depends_on_id] [] ?_ hb)
        intro x hx
        rcases List.mem_cons.mp hx with rfl | hx
        · exact Reaches.refl x
        · cases hx
      | false =>
        simp only [hb, Option.getD_some, Bool.false_eq_true, false_iff, not_or]
        refine ⟨h, ?_⟩
        exact detectCycleAux_complete task_id deps (cycleFuel deps)
          [depends_on_id] [] hb (by intro x hx; cases hx) (by intro hx; cases hx)
          depends_on_id (Or.inl (List.mem_cons_self depends_on_id []))

/-- Witness for C6: inserting edge 1 → 2 when 2 already (transitively)
depends on 1 is reported as a cycle. -/
theorem detect_cycle_iff_reachable_witness :
    detect_cycle 1 2 [(2, [3]), (3, [1])] = true :=
  (detect_cycle_iff_reachable 1 2 [(2, [3]), (3, [1])]).mpr
    (Or.inr (Reaches.step 2 3 1 (by decide)
      (Reaches.step 3 1 1 (by decide) (Reaches.refl 1))))

/-! ### C8: the propagation pass visits a topological order of the
closure, exactly once per task -/

theorem hasNoBlockerIn_spec (edges : List DepEdge) (remaining : List Nat)
    (n : Nat) (h : hasNoBlockerIn edges remaining n = true) :
    ∀ b, (n, b) ∈ edges → b ∉ remaining := by
  intro b hedge hb
  have hall := List.all_eq_true.mp h (n, b) hedge
  rw [Bool.not_eq_true', Bool.and_eq_false_iff] at hall
  rcases hall with h1 | h1
  · simp at h1
  · rw [← Bool.not_eq_true] at h1
    exact h1 (List.elem_iff.mpr hb)

theorem pickNext_mem (edges : List DepEdge) (remaining : List Nat) (n : Nat)
    (h : pickNext edges remaining = some n) : n ∈ remaining :=
  List.mem_of_find?_eq_some h

theorem pickNext_no_blocker (edges : List DepEdge) (remaining : List Nat)
    (n : Nat) (h : pickNext edges remaining = some n) :
    hasNoBlockerIn edges remaining n = true :=
  List.find?_some h

theorem topoAux_perm (edges : List DepEdge) :
    ∀ fuel remaining order, topoAux edges fuel remaining = some order →
      order.Perm remaining := by
  intro fuel
  induction fuel with
  | zero =>
    intro remaining order h
    cases remaining with
    | nil =>
      simp only [topoAux, List.isEmpty_nil, if_true, Option.some_inj] at h
      rw [← h]
    | cons r rs => simp [topoAux] at h
  | succ fuel ih =>
    intro remaining order h
    cases hrem : remaining with
    | nil =>
      subst hrem
      simp only [topoAux, List.isEmpty_nil, if_true, Option.some_inj] at h
      rw [← h]
    | cons r rs =>
      subst hrem
      simp only [topoAux, List.isEmpty_cons, if_false, Bool.false_eq_true] at h
      cases hpick : pickNext edges (r :: rs) with
      | none => rw [hpick] at h; cases h
      | some n =>
        rw [hpick] at h
        rcases Option.map_eq_some'.mp h with ⟨rest, hrest, horder⟩
        have hn : n ∈ r :: rs := pickNext_mem edges (r :: rs) n hpick
        rw [← horder]
        exact ((ih _ rest hrest).cons n).trans
          (List.perm_cons_erase hn).symm

theorem topoAux_sorted (edges : List DepEdge) :
    ∀ fuel remaining order, remaining.Nodup →
      topoAux edges fuel remaining = some order →
      ∀ d b, (d, b) ∈ edges → d ∈ order → b ∈ remaining →
        [b, d].Sublist order := by
  intro fuel
  induction fuel with
  | zero =>
    intro remaining order hnd h d b hedge hd hb
    cases remaining with
    | nil =>
      simp only [topoAux, List.isEmpty_nil, if_true, Option.some_inj] at h
      rw [← h] at hd
      cases hd
    | cons r rs => simp [topoAux] at h
  | succ fuel ih =>
    intro remaining order hnd h d b hedge hd hb
    cases hrem : remaining with
    | nil =>
      subst hrem
      simp only [topoAux, List.isEmpty_nil, if_true, Option.some_inj] at h
      rw [← h] at hd
      cases hd
    | cons r rs =>
      subst hrem
      simp only [topoAux, List.isEmpty_cons, if_false, Bool.false_eq_true] at h
      cases hpick : pickNext edges (r :: rs) with
      | none => rw [hpick] at h; cases h
      | some n =>
        rw [hpick] at h
        rcases Option.map_eq_some'.mp h with ⟨rest, hrest, horder⟩
        have hno := pickNext_no_blocker edges (r :: rs) n hpick
        by_cases hdn : d = n
        · exact absurd hb (hasNoBlockerIn_spec edges (r :: rs) n hno b
            (hdn ▸ hedge))
        · have hd' : d ∈ rest := by
            rw [← horder] at hd
            rcases List.mem_cons.mp hd with h' | h'
            · exact absurd h' hdn
            · exact h'
          by_cases hbn : b = n
          · rw [← horder, hbn]
            exact List.Sublist.cons₂ n (List.singleton_sublist.mpr hd')
          · have hb' : b ∈ (r :: rs).erase n :=
              (List.mem_erase_of_ne hbn).mpr hb
            rw [← horder]
            exact List.Sublist.cons n
              (ih _ rest (hnd.erase n) hrest d b hedge hd' hb')

theorem closureAux_nodup (edges : List DepEdge) :
    ∀ fuel queue visited, visited.Nodup →
      (closureAux edges fuel queue visited).Nodup := by
  intro fuel
  induction fuel with
  | zero =>
    intro queue visited hnd
    simpa [closureAux] using hnd
  | succ fuel ih =>
    intro queue visited hnd
    cases queue with
    | nil => simpa [closureAux] using hnd
    | cons q qs =>
      by_cases hq : q ∈ visited
      · simp only [closureAux, if_pos hq]
        exact ih qs visited hnd
      · simp only [closureAux, if_neg hq]
        refine ih _ _ ?_
        rw [List.nodup_append]
        exact ⟨hnd, List.nodup_singleton q,
          fun a ha hq' => hq ((List.mem_singleton.mp hq') ▸ ha)⟩

theorem downstreamClosure_nodup (edges : List DepEdge) (rootIds : List Nat) :
    (downstreamClosure edges rootIds).Nodup :=
  closureAux_nodup edges _ rootIds [] List.nodup_nil

theorem visitOrder_spec (edges : List DepEdge)
    (rootIds : List Nat) (order : List Nat)
    (h : visitOrder edges rootIds = some order) :
    order.Nodup ∧
    (∀ t, t ∈ order ↔ t ∈ downstreamClosure edges rootIds) ∧
    (∀ d b, (d, b) ∈ edges → d ∈ order → b ∈ order →
      [b, d].Sublist order) := by
  unfold visitOrder topoSort at h
  have hperm := topoAux_perm edges _ _ order h
  have hclnd := downstreamClosure_nodup edges rootIds
  refine ⟨hperm.nodup_iff.mpr hclnd, fun t => hperm.mem_iff, ?_⟩
  intro d b hedge hd hb
  exact topoAux_sorted edges _ _ order hclnd h d b hedge hd
    (hperm.mem_iff.mp hb)

/-- C8: a successful propagation pass walks an order that contains every
task of the downstream closure of the roots exactly once (no
duplicates), and in that order every direct predecessor of a visited
task is placed strictly before it, so a task is never resolved before
one of its in-closure predecessors. -/
theorem propagate_visit_order_topological (edges : List DepEdge)
    (rootIds : List Nat) (order : List Nat)
    (h : visitOrder edges rootIds = some order) :
    order.Nodup ∧
    (∀ t, t ∈ order ↔ t ∈ downstreamClosure edges rootIds) ∧
    (∀ d b, (d, b) ∈ edges → d ∈ order → b ∈ order →
      [b, d].Sublist order) :=
  visitOrder_spec edges rootIds order h

/-- Witness for C8 on the converging example: the pass visits `[1, 2, 3]`
— each closure member once, blockers 1 and 2 before dependent 3. -/
theorem propagate_visit_order_topological_witness :
    ([1, 2, 3] : List Nat).Nodup ∧
    (∀ t, t ∈ ([1, 2, 3] : List Nat) ↔
      t ∈ downstreamClosure exEdges (rootIdsOf exRoots)) ∧
    (∀ d b, (d, b) ∈ exEdges → d ∈ ([1, 2, 3] : List Nat) →
      b ∈ ([1, 2, 3] : List Nat) → [b, d].Sublist [1, 2, 3]) :=
  propagate_visit_order_topological exEdges (rootIdsOf exRoots) [1, 2, 3] rfl

/-! ### C7: propagation is idempotent -/

theorem updateState_self (w : Nat → Task) (n : Nat) (t : Task) :
    updateState w n t n = t := by
  simp [updateState]

theorem updateState_other (w : Nat → Task) (n : Nat) (t : Task) (m : Nat)
    (h : m ≠ n) : updateState w n t m = w m := by
  simp [updateState, h]

theorem updateState_eq_self (w : Nat → Task) (n : Nat) :
    updateState w n (w n) = w := by
  funext m
  by_cases h : m = n
  · rw [h]; exact updateState_self w n (w n)
  · exact updateState_other w n (w n) m h

theorem runPass_nil (edges : List DepEdge) (orig : Nat → Task)
    (rIds : List Nat) (w : Nat → Task) :
    runPass edges orig rIds w [] = (w, []) := rfl

theorem runPass_cons_root (edges : List DepEdge) (orig : Nat → Task)
    (rIds : List Nat) (w : Nat → Task) (t : Nat) (rest : List Nat)
    (h : t ∈ rIds) :
    runPass edges orig rIds w (t :: rest) = runPass edges orig rIds w rest := by
  simp [runPass, h]

theorem runPass_cons_nonroot (edges : List DepEdge) (orig : Nat → Task)
    (rIds : List Nat) (w : Nat → Task) (t : Nat) (rest : List Nat)
    (h : t ∉ rIds) :
    runPass edges orig rIds w (t :: rest) =
      ((runPass edges orig rIds
          (updateState w t (stepTask edges orig w t).1) rest).1,
        (stepTask edges orig w t).2.toList ++
          (runPass edges orig rIds
            (updateState w t (stepTask edges orig w t).1) rest).2) := by
  simp [runPass, h]

theorem runPass_untouched (edges : List DepEdge) (orig : Nat → Task)
    (rIds : List Nat) :
    ∀ (l : List Nat) (w : Nat → Task) (n : Nat), n ∉ l →
      (runPass edges orig rIds w l).1 n = w n := by
  intro l
  induction l with
  | nil => intro w n _; rfl
  | cons t rest ih =>
    intro w n hn
    have hnt : n ≠ t := fun h => hn (h ▸ List.mem_cons_self t rest)
    have hnr : n ∉ rest := fun h => hn (List.mem_cons_of_mem t h)
    by_cases ht : t ∈ rIds
    · rw [runPass_cons_root edges orig rIds w t rest ht]
      exact ih w n hnr
    · rw [runPass_cons_nonroot edges orig rIds w t rest ht]
      rw [ih _ n hnr]
      exact updateState_other w t _ n hnt

theorem runPass_roots_untouched (edges : List DepEdge) (orig : Nat → Task)
    (rIds : List Nat) :
    ∀ (l : List Nat) (w : Nat → Task) (n : Nat), n ∈ rIds →
      (runPass edges orig rIds w l).1 n = w n := by
  intro l
  induction l with
  | nil => intro w n _; rfl
  | cons t rest ih =>
    intro w n hn
    by_cases ht : t ∈ rIds
    · rw [runPass_cons_root edges orig rIds w t rest ht]
      exact ih w n hn
    · rw [runPass_cons_nonroot edges orig rIds w t rest ht]
      have hnt : n ≠ t := fun h => ht (h ▸ hn)
      rw [ih _ n hn]
      exact updateState_other w t _ n hnt

theorem runPass_state_append (edges : List DepEdge) (orig : Nat → Task)
    (rIds : List Nat) :
    ∀ (l1 l2 : List Nat) (w : Nat → Task),
      (runPass edges orig rIds w (l1 ++ l2)).1 =
        (runPass edges orig rIds (runPass edges orig rIds w l1).1 l2).1 := by
  intro l1
  induction l1 with
  | nil => intro l2 w; rfl
  | cons t rest ih =>
    intro l2 w
    by_cases ht : t ∈ rIds
    · rw [List.cons_append, runPass_cons_root edges orig rIds w t (rest ++ l2) ht,
        runPass_cons_root edges orig rIds w t rest ht]
      exact ih l2 w
    · rw [List.cons_append,
        runPass_cons_nonroot edges orig rIds w t (rest ++ l2) ht,
        runPass_cons_nonroot edges orig rIds w t rest ht]
      exact ih l2 _

theorem before_mem_left :
    ∀ (l1 l2 : List Nat) (p t : Nat), (l1 ++ t :: l2).Nodup →
      [p, t].Sublist (l1 ++ t :: l2) → p ≠ t → p ∈ l1 := by
  intro l1
  induction l1 with
  | nil =>
    intro l2 p t hnd hsub hne
    exfalso
    rw [List.nil_append] at hsub hnd
    cases hsub with
    | cons _ h =>
      exact (List.nodup_cons.mp hnd).1 (h.subset (List.mem_cons_of_mem p
        (List.mem_singleton_self t)))
    | cons₂ _ h => exact hne rfl
  | cons a l1' ih =>
    intro l2 p t hnd hsub hne
    rw [List.cons_append] at hsub hnd
    cases hsub with
    | cons _ h =>
      exact List.mem_cons_of_mem a
        (ih l2 p t (List.Nodup.of_cons hnd) h hne)
    | cons₂ _ h => exact List.mem_cons_self _ _

theorem mem_predsOf (edges : List DepEdge) (t p : Nat) :
    p ∈ predsOf edges t ↔ (t, p) ∈ edges := by
  unfold predsOf
  constructor
  · intro hp
    rcases List.mem_map.mp hp with ⟨pr, hpr, hsnd⟩
    have := List.mem_filter.mp hpr
    have hfst : pr.1 = t := of_decide_eq_true this.2
    have : pr = (t, p) := by
      rcases pr with ⟨x, y⟩
      simp only at hfst hsnd
      rw [hfst, hsnd]
    exact this ▸ this.symm ▸ (List.mem_filter.mp hpr).1
  · intro hedge
    refine List.mem_map.mpr ⟨(t, p), List.mem_filter.mpr ⟨hedge, ?_⟩, rfl⟩
    exact decide_eq_true rfl

theorem ite_pair_fst {c : Prop} [Decidable c] (a₁ b₁ : Task)
    (a₂ b₂ : Option ScheduleHistoryEntry) :
    (if c then (a₁, a₂) else (b₁, b₂)).1 = if c then a₁ else b₁ := by
  by_cases h : c <;> simp [h]

theorem stepTask_fst (edges : List DepEdge) (orig w : Nat → Task) (t : Nat) :
    (stepTask edges orig w t).1 =
      (if (resolveDates (w t)
            (calculate_max_delay_from_parents ((predsOf edges t).map w))
            (calculate_max_delay_from_parents ((predsOf edges t).map orig))).1 =
              (w t).expected_start_date ∧
          (resolveDates (w t)
            (calculate_max_delay_from_parents ((predsOf edges t).map w))
            (calculate_max_delay_from_parents ((predsOf edges t).map orig))).2 =
              (w t).expected_end_date
        then w t
        else { w t with
          expected_start_date := (resolveDates (w t)
            (calculate_max_delay_from_parents ((predsOf edges t).map w))
            (calculate_max_delay_from_parents ((predsOf edges t).map orig))).1,
          expected_end_date := (resolveDates (w t)
            (calculate_max_delay_from_parents ((predsOf edges t).map w))
            (calculate_max_delay_from_parents ((predsOf edges t).map orig))).2 }) := by
  simp only [stepTask, ite_pair_fst]

theorem stepTask_fix (edges : List DepEdge) (S1 : Nat → Task) (t : Nat)
    (hres : resolveDates (S1 t)
        (calculate_max_delay_from_parents ((predsOf edges t).map S1))
        (calculate_max_delay_from_parents ((predsOf edges t).map S1)) =
      ((S1 t).expected_start_date, (S1 t).expected_end_date)) :
    stepTask edges S1 S1 t = (S1 t, none) := by
  simp only [stepTask, hres]
  rw [if_pos ⟨trivial, trivial⟩]

theorem resolveDates_self (task : Task) (M : Option Int)
    (hbound : ∀ s e m, task.status ≠ TaskStatus.done →
      task.status ≠ TaskStatus.cancelled → task.actual_start_date = none →
      task.expected_start_date = some s → task.expected_end_date = some e →
      M = some m → m ≤ s) :
    resolveDates task M M =
      (task.expected_start_date, task.expected_end_date) := by
  unfold resolveDates
  by_cases hfreeze : task.status = TaskStatus.done ∨
      task.status = TaskStatus.cancelled
  · rw [if_pos hfreeze]
  · rw [if_neg hfreeze]
    push_neg at hfreeze
    obtain ⟨hdne, hcne⟩ := hfreeze
    by_cases hstart : task.actual_start_date.isSome
    · rw [if_pos hstart]
      cases he : task.expected_end_date with
      | none => cases M <;> rfl
      | some e =>
        cases M with
        | none => rfl
        | some c => simp
    · rw [if_neg hstart]
      have hasn : task.actual_start_date = none :=
        Option.not_isSome_iff_eq_none.mp hstart
      cases hs : task.expected_start_date with
      | none => cases he : task.expected_end_date <;> cases M <;> rfl
      | some s =>
        cases he : task.expected_end_date with
        | none => cases M <;> rfl
        | some e =>
          cases hM : M with
          | none => rfl
          | some m =>
            have hms : m ≤ s := hbound s e m hdne hcne hasn hs he hM
            have harith : s + (e - s) = e := by ring
            show (some (max s m), some (max s m + (e - s))) = (some s, some e)
            rw [max_eq_left hms, harith]

theorem stepTask_bound (edges : List DepEdge) (orig wt : Nat → Task)
    (t : Nat) (s e m : Int)
    (hdne : (stepTask edges orig wt t).1.status ≠ TaskStatus.done)
    (hcne : (stepTask edges orig wt t).1.status ≠ TaskStatus.cancelled)
    (hasn : (stepTask edges orig wt t).1.actual_start_date = none)
    (hes : (stepTask edges orig wt t).1.expected_start_date = some s)
    (hee : (stepTask edges orig wt t).1.expected_end_date = some e)
    (hM : calculate_max_delay_from_parents ((predsOf edges t).map wt) = some m) :
    m ≤ s := by
  rw [stepTask_fst] at hdne hcne hasn hes hee
  set Mc := calculate_max_delay_from_parents ((predsOf edges t).map wt) with hMc
  set Mo := calculate_max_delay_from_parents ((predsOf edges t).map orig) with hMo
  set r := resolveDates (wt t) Mc Mo with hr
  by_cases hcond : r.1 = (wt t).expected_start_date ∧
      r.2 = (wt t).expected_end_date
  · rw [if_pos hcond] at hdne hcne hasn hes hee
    have hfreeze : ¬((wt t).status = TaskStatus.done ∨
        (wt t).status = TaskStatus.cancelled) := not_or.mpr ⟨hdne, hcne⟩
    have hnst : ¬ (wt t).actual_start_date.isSome = true := by
      rw [hasn]; simp
    have hr1 : r.1 = some (max s m) := by
      rw [hr]
      unfold resolveDates
      rw [if_neg hfreeze, if_neg hnst, hes, hee, hM]
    have h2 : max s m = s := Option.some.inj (hr1.symm.trans (hcond.1.trans hes))
    exact max_eq_left_iff.mp h2
  · rw [if_neg hcond] at hdne hcne hasn hes hee
    have hdne' : (wt t).status ≠ TaskStatus.done := hdne
    have hcne' : (wt t).status ≠ TaskStatus.cancelled := hcne
    have hasn' : (wt t).actual_start_date = none := hasn
    have hes' : r.1 = some s := hes
    have hee' : r.2 = some e := hee
    have hfreeze : ¬((wt t).status = TaskStatus.done ∨
        (wt t).status = TaskStatus.cancelled) := not_or.mpr ⟨hdne', hcne'⟩
    have hnst : ¬ (wt t).actual_start_date.isSome = true := by
      rw [hasn']; simp
    cases hs0 : (wt t).expected_start_date with
    | none =>
      have hr1 : r = ((wt t).expected_start_date, (wt t).expected_end_date) := by
        rw [hr]
        unfold resolveDates
        rw [if_neg hfreeze, if_neg hnst, hs0, hM]
      exact absurd (by rw [hr1]; exact ⟨rfl, rfl⟩) hcond
    | some s₀ =>
      cases he0 : (wt t).expected_end_date with
      | none =>
        have hr1 : r = ((wt t).expected_start_date, (wt t).expected_end_date) := by
          rw [hr]
          unfold resolveDates
          rw [if_neg hfreeze, if_neg hnst, hs0, he0, hM]
        exact absurd (by rw [hr1]; exact ⟨rfl, rfl⟩) hcond
      | some e₀ =>
        have hr1 : r.1 = some (max s₀ m) := by
          rw [hr]
          unfold resolveDates
          rw [if_neg hfreeze, if_neg hnst, hs0, he0, hM]
        have h2 : max s₀ m = s := Option.some.inj (hr1.symm.trans hes')
        exact h2 ▸ le_max_right s₀ m

theorem runPass_step_char (edges : List DepEdge) (orig : Nat → Task)
    (rIds : List Nat) (w : Nat → Task) (order : List Nat)
    (hnd : order.Nodup)
    (hsort : ∀ d b, (d, b) ∈ edges → d ∈ order → b ∈ order →
      [b, d].Sublist order)
    (t : Nat) (ht : t ∈ order) (htr : t ∉ rIds) :
    ∃ wt : Nat → Task,
      (∀ p, p ∈ predsOf edges t →
        wt p = (runPass edges orig rIds w order).1 p) ∧
      (runPass edges orig rIds w order).1 t = (stepTask edges orig wt t).1 := by
  obtain ⟨l1, l2, rfl⟩ := List.append_of_mem ht
  have hnd' := hnd
  rw [List.nodup_append] at hnd'
  obtain ⟨hnd1, hnd2, hdisj⟩ := hnd'
  have htl2 : t ∉ l2 := (List.nodup_cons.mp hnd2).1
  have hsplit : (runPass edges orig rIds w (l1 ++ t :: l2)).1 =
      (runPass edges orig rIds
        (updateState (runPass edges orig rIds w l1).1 t
          (stepTask edges orig (runPass edges orig rIds w l1).1 t).1) l2).1 := by
    rw [runPass_state_append edges orig rIds l1 (t :: l2) w,
      runPass_cons_nonroot edges orig rIds _ t l2 htr]
  refine ⟨(runPass edges orig rIds w l1).1, ?_, ?_⟩
  · intro p hp
    have hedge : (t, p) ∈ edges := (mem_predsOf edges t p).mp hp
    by_cases hpt : p = t
    · exfalso
      have hsub := hsort t t (hpt ▸ hedge) ht ht
      have hdup : ([t, t] : List Nat).Nodup := hnd.sublist hsub
      simp at hdup
    · by_cases hpo : p ∈ l1 ++ t :: l2
      · have hsub := hsort t p hedge ht hpo
        have hpl1 : p ∈ l1 := before_mem_left l1 l2 p t hnd hsub hpt
        have hpl2 : p ∉ l2 :=
          fun h => (hdisj hpl1) (List.mem_cons_of_mem t h)
        rw [hsplit, runPass_untouched edges orig rIds l2 _ p hpl2,
          updateState_other _ t _ p hpt]
      · have hpl1 : p ∉ l1 := fun h => hpo (List.mem_append.mpr (Or.inl h))
        rw [runPass_untouched edges orig rIds (l1 ++ t :: l2) w p hpo,
          runPass_untouched edges orig rIds l1 w p hpl1]
  · rw [hsplit, runPass_untouched edges orig rIds l2 _ t htl2,
      updateState_self]

theorem runPass_fixpoint (edges : List DepEdge) (rIds : List Nat)
    (S1 : Nat → Task) :
    ∀ l : List Nat,
      (∀ t ∈ l, t ∉ rIds → stepTask edges S1 S1 t = (S1 t, none)) →
      runPass edges S1 rIds S1 l = (S1, []) := by
  intro l
  induction l with
  | nil => intro _; rfl
  | cons t rest ih =>
    intro hfix
    by_cases ht : t ∈ rIds
    · rw [runPass_cons_root edges S1 rIds S1 t rest ht]
      exact ih (fun x hx hxr => hfix x (List.mem_cons_of_mem t hx) hxr)
    · rw [runPass_cons_nonroot edges S1 rIds S1 t rest ht]
      have hstep := hfix t (List.mem_cons_self t rest) ht
      rw [hstep, updateState_eq_self,
        ih (fun x hx hxr => hfix x (List.mem_cons_of_mem t hx) hxr)]
      rfl

theorem applyRoots_stable (tasks S1 : Nat → Task) (roots : List RootChange)
    (hroot : ∀ n, n ∈ rootIdsOf roots → S1 n = applyRoots tasks roots n) :
    applyRoots S1 roots = S1 := by
  funext n
  unfold applyRoots
  cases hf : roots.find? (fun rc => rc.id = n) with
  | none => rfl
  | some rc =>
    have hrcmem : rc ∈ roots := List.mem_of_find?_eq_some hf
    have hp := List.find?_some hf
    have hrc_id : rc.id = n := of_decide_eq_true hp
    have hn : n ∈ rootIdsOf roots := by
      rw [← hrc_id]
      exact List.mem_map_of_mem _ hrcmem
    have h1 := hroot n hn
    rw [applyRoots, hf] at h1
    have hee : (S1 n).expected_end_date = some rc.newEnd := by rw [h1]
    show ({ expected_start_date := (S1 n).expected_start_date,
            expected_end_date := some rc.newEnd,
            actual_start_date := (S1 n).actual_start_date,
            actual_end_date := (S1 n).actual_end_date,
            status := (S1 n).status } : Task) = S1 n
    rw [← hee]

/-- C7: propagation is idempotent — running `propagate` a second time
with the same root changes against the graph state produced by the first
run changes nothing: the state is returned as it is and the list of new
`ScheduleHistoryEntry` records is empty, because every task resolves to
exactly its stored dates and an unchanged task produces no entry. -/
theorem propagate_idempotent (edges : List DepEdge) (tasks : Nat → Task)
    (roots : List RootChange) (S1 : Nat → Task)
    (entries : List ScheduleHistoryEntry)
    (h : propagate edges tasks roots = some (S1, entries)) :
    propagate edges S1 roots = some (S1, []) := by
  unfold propagate at h ⊢
  cases horder : visitOrder edges (rootIdsOf roots) with
  | none => rw [horder] at h; cases h
  | some order =>
    rw [horder] at h
    have hrun := Option.some.inj h
    have hS1 : (runPass edges tasks (rootIdsOf roots)
        (applyRoots tasks roots) order).1 = S1 := by rw [hrun]
    obtain ⟨hnd, _, hsort⟩ := visitOrder_spec edges (rootIdsOf roots) order horder
    have hroot : ∀ n, n ∈ rootIdsOf roots →
        S1 n = applyRoots tasks roots n := by
      intro n hn
      rw [← hS1]
      exact runPass_roots_untouched edges tasks (rootIdsOf roots) order
        (applyRoots tasks roots) n hn
    rw [applyRoots_stable tasks S1 roots hroot]
    show some (runPass edges S1 (rootIdsOf roots) S1 order) = some (S1, [])
    congr 1
    apply runPass_fixpoint
    intro t ht htr
    obtain ⟨wt, hstab, hS1t⟩ := runPass_step_char edges tasks
      (rootIdsOf roots) (applyRoots tasks roots) order hnd hsort t ht htr
    rw [hS1] at hstab hS1t
    have hmap : (predsOf edges t).map wt = (predsOf edges t).map S1 :=
      List.map_congr_left hstab
    apply stepTask_fix
    apply resolveDates_self
    intro s e m hdne hcne hasn hes hee hM
    exact stepTask_bound edges tasks wt t s e m (hS1t ▸ hdne) (hS1t ▸ hcne)
      (hS1t ▸ hasn) (hS1t ▸ hes) (hS1t ▸ hee) (by rw [hmap]; exact hM)

/-- Witness for C7: on the converging example, re-running the
propagation against the produced state yields the same state and no
history entries. -/
theorem propagate_idempotent_witness :
    propagate exEdges
      ((propagate exEdges exTasks exRoots).getD (exTasks, [])).1 exRoots =
    some (((propagate exEdges exTasks exRoots).getD (exTasks, [])).1, []) :=
  propagate_idempotent exEdges exTasks exRoots
    ((propagate exEdges exTasks exRoots).getD (exTasks, [])).1
    ((propagate exEdges exTasks exRoots).getD (exTasks, [])).2 rfl

end Planner
